import Mathlib

/-!
Verification of the combination-iterator crate (gen-combinations).

The source is a single Rust file exposing a struct CombinationIterator
holding a borrowed item slice and a Vec of indices, with a constructor
new (initializing indices to 0..n) and an Iterator::next implementation
that emits the combination selected by the current indices and then
advances the indices to the lexicographically next combination, clearing
them after the last one.

The shallow embedding below renders the item slice as a List, the index
vector as a List of naturals, and next as a pure function returning the
produced value together with the successor state.
-/

set_option maxHeartbeats 1000000

namespace GenCombinations

/-- The struct CombinationIterator: a borrowed slice of items plus the
owned vector of current indices (lib.rs lines 29-33). -/
structure CombinationIterator (α : Type) where
  items : List α
  indices : List Nat
  deriving Repr, DecidableEq

namespace CombinationIterator

variable {α : Type}

/-- The constructor new (lib.rs lines 39-42): indices := (0..n).collect(). -/
def new (items : List α) (n : Nat) : CombinationIterator α :=
  { items := items, indices := List.range n }

/-- The advancement scan of next (lib.rs lines 53-62): the argument i+1
means the scan currently examines position i, mirroring the loop
for i in (0..self.indices.len()).rev().  At position i the code tests
indices[i] < items.len() - (indices.len() - i); on success it sets
indices[i] += 1 and then indices[j] = indices[i] + (j - i) for every
j in i..len, which leaves positions below i unchanged and overwrites the
positions from i on with the consecutive run starting at indices[i] + 1;
if no position passes the test the vector is cleared (lib.rs line 62). -/
def scanRev (N : Nat) (l : List Nat) : Nat → List Nat
  | 0 => []
  | i + 1 =>
    if l.getD i 0 < N - (l.length - i) then
      l.take i ++ List.range' (l.getD i 0 + 1) (l.length - i)
    else
      scanRev N l i

/-- The whole advancement step performed by next after building the
return value: scan positions from the last one downwards. -/
def advance (N : Nat) (l : List Nat) : List Nat :=
  scanRev N l l.length

/-- Iterator::next (lib.rs lines 48-65).  Returns the produced value
(None is the exhausted signal) together with the state after the call.
The guard on line 49 returns None, leaving the state untouched, when the
index vector is empty or longer than the item slice; otherwise the
combination items[indices[0]], ..., items[indices[k-1]] is built
(line 52) and the indices are advanced. -/
def next [Inhabited α] (it : CombinationIterator α) :
    Option (List α) × CombinationIterator α :=
  if it.indices = [] ∨ it.items.length < it.indices.length then
    (none, it)
  else
    (some (it.indices.map fun i => it.items.getD i default),
     { items := it.items, indices := advance it.items.length it.indices })

/-- The state reached after m successive next calls. -/
def steps [Inhabited α] : Nat → CombinationIterator α → CombinationIterator α
  | 0, it => it
  | m + 1, it => steps m (next it).2

/-- The values produced by successive next calls, stopping at the first
exhausted signal or after fuel calls, whichever comes first. -/
def takeAll [Inhabited α] : Nat → CombinationIterator α → List (List α)
  | 0, _ => []
  | fuel + 1, it =>
    match next it with
    | (some c, it') => c :: takeAll fuel it'
    | (none, _) => []

/-- The index tuples underlying the values produced by successive next
calls: entry m is the index vector at the time of the (m+1)-st
producing call. -/
def indexTrace [Inhabited α] : Nat → CombinationIterator α → List (List Nat)
  | 0, _ => []
  | fuel + 1, it =>
    match next it with
    | (some _, it') => it.indices :: indexTrace fuel it'
    | (none, _) => []

end CombinationIterator

/-- All strictly increasing k-tuples over the interval from s up to N-1,
in lexicographic order.  This is the reference enumeration the iterator
is proved to follow. -/
def combosFrom (N : Nat) : Nat → Nat → List (List Nat)
  | _, 0 => [[]]
  | s, k + 1 =>
    (List.range' s (N - k - s)).flatMap fun a =>
      (combosFrom N (a + 1) k).map (a :: ·)

end GenCombinations

namespace GenCombinations

open List

/-- Auxiliary: two lists sharing a proper prefix compare lexicographically
by the first entries after the prefix. -/
theorem lex_append_of_lt {a b : Nat} (hab : a < b) :
    ∀ (p u w : List Nat), List.Lex (· < ·) (p ++ a :: u) (p ++ b :: w)
  | [], _, _ => List.Lex.rel hab
  | _ :: p, u, w => List.Lex.cons (lex_append_of_lt hab p u w)

namespace CombinationIterator

/-- Scanning zero positions clears the index vector; in particular the
advancement of an empty index vector is empty. -/
theorem advance_nil (N : Nat) : advance N [] = [] := rfl

/-- The scan either clears the vector or keeps its length. -/
theorem scanRev_eq_nil_or_length (N : Nat) (l : List Nat) :
    ∀ n, n ≤ l.length → scanRev N l n = [] ∨ (scanRev N l n).length = l.length := by
  intro n hn
  induction n with
  | zero => exact Or.inl rfl
  | succ i ih =>
    rw [scanRev]
    by_cases hc : l.getD i 0 < N - (l.length - i)
    · rw [if_pos hc]
      right
      have hi : i < l.length := Nat.lt_of_succ_le hn
      rw [List.length_append, List.length_take, List.length_range']
      omega
    · rw [if_neg hc]
      exact ih (Nat.le_of_succ_le hn)

/-- When no scanned position passes the room test, the vector is cleared. -/
theorem scanRev_eq_nil (N : Nat) (l : List Nat) :
    ∀ n, (∀ j, j < n → ¬ l.getD j 0 < N - (l.length - j)) → scanRev N l n = [] := by
  intro n h
  induction n with
  | zero => rfl
  | succ i ih =>
    rw [scanRev, if_neg (h i (Nat.lt_succ_self i))]
    exact ih fun j hj => h j (Nat.lt_succ_of_lt hj)

/-- When position i is the highest scanned position passing the room test,
the scan rewrites the suffix from i on to the consecutive run starting
one above the old entry at i. -/
theorem scanRev_eq_of_spec (N : Nat) (l : List Nat) (i : Nat) :
    ∀ n, i < n → l.getD i 0 < N - (l.length - i) →
      (∀ j, i < j → j < n → ¬ l.getD j 0 < N - (l.length - j)) →
      scanRev N l n = l.take i ++ List.range' (l.getD i 0 + 1) (l.length - i) := by
  intro n hin hc hmax
  induction n with
  | zero => omega
  | succ m ih =>
    rw [scanRev]
    rcases Nat.lt_or_ge i m with him | him
    · rw [if_neg (hmax m him (Nat.lt_succ_self m))]
      exact ih him fun j hj hjm => hmax j hj (Nat.lt_succ_of_lt hjm)
    · have : i = m := Nat.le_antisymm (Nat.le_of_lt_succ hin) him
      subst this
      rw [if_pos hc]

/-- A successful scan yields a lexicographically larger vector. -/
theorem scanRev_lex (N : Nat) (l : List Nat) :
    ∀ n, n ≤ l.length → scanRev N l n ≠ [] →
      List.Lex (· < ·) l (scanRev N l n) := by
  intro n hn hne
  induction n with
  | zero => exact absurd rfl hne
  | succ i ih =>
    rw [scanRev] at hne ⊢
    by_cases hc : l.getD i 0 < N - (l.length - i)
    · rw [if_pos hc] at hne ⊢
      have hi : i < l.length := Nat.lt_of_succ_le hn
      have hdrop : List.drop i l = l[i] :: List.drop (i + 1) l :=
        List.drop_eq_getElem_cons hi
      have hsplit : l = l.take i ++ l[i] :: List.drop (i + 1) l := by
        rw [← hdrop, List.take_append_drop]
      have hm : l.length - i = (l.length - (i + 1)) + 1 := by omega
      have hrange : List.range' (l.getD i 0 + 1) (l.length - i) =
          (l.getD i 0 + 1) :: List.range' (l.getD i 0 + 1 + 1) (l.length - (i + 1)) := by
        rw [hm, List.range'_succ]
      rw [hrange, List.getD_eq_getElem l 0 hi]
      nth_rewrite 1 [hsplit]
      exact lex_append_of_lt (Nat.lt_succ_self l[i]) _ _ _
    · rw [if_neg hc] at hne ⊢
      exact ih (Nat.le_of_succ_le hn) hne

/-- The advancement either clears the vector or keeps its length. -/
theorem advance_eq_nil_or_length (N : Nat) (l : List Nat) :
    advance N l = [] ∨ (advance N l).length = l.length :=
  scanRev_eq_nil_or_length N l l.length (Nat.le_refl _)

/-- A non-clearing advancement yields a lexicographically larger vector. -/
theorem advance_lex (N : Nat) (l : List Nat) (h : advance N l ≠ []) :
    List.Lex (· < ·) l (advance N l) :=
  scanRev_lex N l l.length (Nat.le_refl _) h

/-- Scanning a vector with head a: the positions of the tail are scanned
exactly as in a scan of the tail alone, and position 0 is examined only
when the tail scan clears. -/
theorem scanRev_cons (N a : Nat) (t : List Nat) :
    ∀ m, m ≤ t.length →
      scanRev N (a :: t) (m + 1) =
        if scanRev N t m = [] then
          if a < N - (t.length + 1) then List.range' (a + 1) (t.length + 1) else []
        else a :: scanRev N t m := by
  intro m hm
  induction m with
  | zero =>
    rw [scanRev, if_pos rfl, scanRev]
    simp only [List.getD_cons_zero, List.length_cons, Nat.sub_zero, List.take_zero,
      List.nil_append]
    by_cases hc : a < N - (t.length + 1)
    · rw [if_pos hc, if_pos hc]
    · rw [if_neg hc, if_neg hc]
      rfl
  | succ m ih =>
    have hmt : m < t.length := Nat.lt_of_succ_le hm
    rw [scanRev]
    simp only [List.getD_cons_succ, List.length_cons, List.take_succ_cons,
      Nat.succ_sub_succ]
    by_cases hc : t.getD m 0 < N - (t.length - m)
    · rw [if_pos hc]
      have htm : scanRev N t (m + 1) =
          t.take m ++ List.range' (t.getD m 0 + 1) (t.length - m) := by
        rw [scanRev, if_pos hc]
      have hne : scanRev N t (m + 1) ≠ [] := by
        rw [htm]
        intro hnil
        have := congrArg List.length hnil
        rw [List.length_append, List.length_take, List.length_range'] at this
        simp only [List.length_nil] at this
        omega
      rw [if_neg hne, htm, List.cons_append]
    · rw [if_neg hc]
      have htm : scanRev N t (m + 1) = scanRev N t m := by
        rw [scanRev, if_neg hc]
      rw [htm, ih (Nat.le_of_lt hmt)]

/-- Advancing a vector with head a: the tail advances on its own, and
only when the tail clears is the head examined, either starting a fresh
consecutive run one above the head or clearing the whole vector. -/
theorem advance_cons (N a : Nat) (t : List Nat) :
    advance N (a :: t) =
      if advance N t = [] then
        if a < N - (t.length + 1) then List.range' (a + 1) (t.length + 1) else []
      else a :: advance N t := by
  have h := scanRev_cons N a t t.length (Nat.le_refl _)
  simpa [advance] using h

end CombinationIterator

open CombinationIterator in
/-- Every tuple in the reference enumeration has length k. -/
theorem combosFrom_length_mem (N : Nat) :
    ∀ k s l, l ∈ combosFrom N s k → l.length = k := by
  intro k
  induction k with
  | zero =>
    intro s l hl
    simp only [combosFrom, List.mem_singleton] at hl
    simp [hl]
  | succ k ih =>
    intro s l hl
    simp only [combosFrom, List.mem_flatMap, List.mem_map] at hl
    obtain ⟨a, _, l', hl', rfl⟩ := hl
    simp [ih (a + 1) l' hl']

/-- When s + k ≤ N the reference enumeration starts with the consecutive
run s, s+1, ..., s+k-1. -/
theorem combosFrom_head (N : Nat) :
    ∀ k s, s + k ≤ N → (combosFrom N s k).head? = some (List.range' s k) := by
  intro k
  induction k with
  | zero => intro s _; rfl
  | succ k ih =>
    intro s hs
    have hc : N - k - s = (N - k - (s + 1)) + 1 := by omega
    rw [combosFrom, hc, List.range'_succ, List.flatMap_cons, List.head?_append,
      List.head?_map, ih (s + 1) (by omega), List.range'_succ]
    rfl

/-- When s + k ≤ N the reference enumeration is nonempty. -/
theorem combosFrom_ne_nil (N k s : Nat) (h : s + k ≤ N) : combosFrom N s k ≠ [] := by
  intro hnil
  have hh := combosFrom_head N k s h
  rw [hnil] at hh
  exact Option.noConfusion hh

/-- Auxiliary summation identity behind the binomial count: summing the
counts of the per-head blocks gives the next binomial coefficient. -/
theorem sum_map_choose (N k : Nat) :
    ∀ c s, c = N - k - s →
      ((List.range' s c).map fun a => Nat.choose (N - (a + 1)) k).sum =
        Nat.choose (N - s) (k + 1) := by
  intro c
  induction c with
  | zero =>
    intro s hc
    have hlt : N - s < k + 1 := by omega
    simp [Nat.choose_eq_zero_of_lt hlt]
  | succ c ih =>
    intro s hc
    rw [List.range'_succ, List.map_cons, List.sum_cons, ih (s + 1) (by omega)]
    have h1 : N - s = (N - (s + 1)) + 1 := by omega
    rw [h1]
    exact (Nat.choose_succ_succ (N - (s + 1)) k).symm

/-- The reference enumeration has exactly binomial-coefficient many
tuples. -/
theorem combosFrom_length (N : Nat) :
    ∀ k s, (combosFrom N s k).length = Nat.choose (N - s) k := by
  intro k
  induction k with
  | zero => intro s; simp [combosFrom]
  | succ k ih =>
    intro s
    rw [combosFrom, List.length_flatMap]
    have hmap : List.map (List.length ∘ fun a => (combosFrom N (a + 1) k).map (a :: ·))
        (List.range' s (N - k - s)) =
        List.map (fun a => Nat.choose (N - (a + 1)) k) (List.range' s (N - k - s)) := by
      apply List.map_congr_left
      intro a _
      simp [List.length_map, ih (a + 1)]
    rw [hmap, sum_map_choose N k (N - k - s) s rfl]

/-- Tuples after the first one in the reference enumeration are nonempty. -/
theorem combosFrom_tail_ne_nil (N k s : Nat) :
    ∀ l ∈ (combosFrom N s k).tail, l ≠ [] := by
  cases k with
  | zero => simp [combosFrom]
  | succ k =>
    intro l hl hnil
    have hlen := combosFrom_length_mem N (k + 1) s l (List.mem_of_mem_tail hl)
    rw [hnil] at hlen
    simp at hlen

open CombinationIterator in
/-- Prepending a common head preserves the successor chain on a list of
tuples whose non-initial entries are nonempty: the scan touches the head
only when the tail clears. -/
theorem chain_map_cons (N a : Nat) :
    ∀ L : List (List Nat), (∀ l ∈ L.tail, l ≠ []) →
      List.Chain' (fun x y => advance N x = y) L →
      List.Chain' (fun x y => advance N x = y) (L.map (a :: ·)) := by
  intro L
  induction L with
  | nil => intro _ _; simp
  | cons x L ih =>
    intro hne hch
    cases L with
    | nil => exact List.chain'_singleton _
    | cons y L' =>
      rw [List.map_cons, List.map_cons]
      apply List.chain'_cons.mpr
      constructor
      · have hxy : advance N x = y := (List.chain'_cons.mp hch).1
        have hy : y ≠ [] := hne y (List.mem_cons_self y L')
        rw [advance_cons, hxy, if_neg hy]
      · rw [← List.map_cons]
        exact ih (fun l hl => hne l (List.mem_cons_of_mem y hl))
          (List.chain'_cons.mp hch).2

open CombinationIterator in
/-- The successor chain: within the reference enumeration each tuple
advances to the next one, and the last tuple advances to the empty
vector. -/
theorem combosFrom_chain (N : Nat) :
    ∀ k s, s + k ≤ N →
      List.Chain' (fun x y => advance N x = y) (combosFrom N s k ++ [[]]) := by
  intro k
  induction k with
  | zero =>
    intro s _
    exact List.chain'_cons.mpr ⟨advance_nil N, List.chain'_singleton _⟩
  | succ k ih =>
    intro s hs
    have hgen : ∀ c s', c = N - k - s' →
        List.Chain' (fun x y => advance N x = y)
          ((List.range' s' c).flatMap
            (fun a => (combosFrom N (a + 1) k).map (a :: ·)) ++ [[]]) := by
      intro c
      induction c with
      | zero =>
        intro s' _
        simp
      | succ c ihc =>
        intro s' hc
        have hsN : s' + 1 + k ≤ N := by omega
        rw [List.range'_succ, List.flatMap_cons, List.append_assoc]
        have hT : combosFrom N (s' + 1) k ≠ [] := combosFrom_ne_nil N k (s' + 1) hsN
        have hchainT := ih (s' + 1) hsN
        apply List.chain'_append.mpr
        refine ⟨?_, ihc (s' + 1) (by omega), ?_⟩
        · exact chain_map_cons N s' _ (combosFrom_tail_ne_nil N k (s' + 1))
            hchainT.left_of_append
        · intro x hx y hy
          set xt := (combosFrom N (s' + 1) k).getLast hT with hxt
          have hlast : (combosFrom N (s' + 1) k).getLast? = some xt :=
            List.getLast?_eq_getLast _ hT
          have hxval : x = s' :: xt := by
            rw [List.getLast?_map, hlast] at hx
            simpa using hx.symm
          have hxtadv : advance N xt = [] := by
            have h3 := (List.chain'_append.mp hchainT).2.2
            exact h3 xt hlast [] rfl
          have hxtlen : xt.length = k :=
            combosFrom_length_mem N k (s' + 1) xt (hxt ▸ List.getLast_mem hT)
          rw [hxval, advance_cons, hxtadv, if_pos rfl, hxtlen]
          cases c with
          | zero =>
            have hy' : y = [] := by simpa using hy
            have hns : ¬ s' < N - (k + 1) := by omega
            rw [if_neg hns, hy']
          | succ c' =>
            rw [List.range'_succ, List.flatMap_cons, List.head?_append,
              List.head?_append, List.head?_map,
              combosFrom_head N k (s' + 1 + 1) (by omega)] at hy
            have hy' : y = (s' + 1) :: List.range' (s' + 1 + 1) k := by
              simpa using hy.symm
            have hps : s' < N - (k + 1) := by omega
            rw [if_pos hps, hy', List.range'_succ]
    rw [combosFrom]
    exact hgen (N - k - s) s rfl

namespace CombinationIterator

variable {α : Type}

/-- A call whose guard fires leaves the state untouched (lib.rs line 50
returns None without writing anything). -/
theorem next_none_frame [Inhabited α] (it : CombinationIterator α)
    (h : (next it).1 = none) : (next it).2 = it := by
  unfold next at h ⊢
  split_ifs at h ⊢ with hg
  · rfl

/-- The produced value is None exactly when the guard of line 49 fires. -/
theorem next_eq_none_iff [Inhabited α] (it : CombinationIterator α) :
    (next it).1 = none ↔ it.indices = [] ∨ it.items.length < it.indices.length := by
  unfold next
  split_ifs with hg
  · simp [hg]
  · simp [hg]

/-- After an exhausted call every later state is the same state. -/
theorem steps_of_none [Inhabited α] (it : CombinationIterator α)
    (h : (next it).1 = none) : ∀ m, steps m it = it := by
  intro m
  induction m with
  | zero => rfl
  | succ m ih =>
    have h2 : (next it).2 = it := next_none_frame it h
    rw [steps, h2, ih]

/-- An exhausted iterator produces nothing for any amount of fuel. -/
theorem takeAll_of_none [Inhabited α] (it : CombinationIterator α)
    (h : (next it).1 = none) : ∀ fuel, takeAll fuel it = [] := by
  intro fuel
  cases fuel with
  | zero => rfl
  | succ fuel =>
    rw [takeAll]
    rcases hn : next it with ⟨o, it2⟩
    rw [hn] at h
    cases o with
    | none => rfl
    | some c => exact Option.noConfusion h

/-- Helper: appending the sentinel empty tuple exposes the head. -/
theorem head?_append_sentinel (L : List (List Nat)) :
    (L ++ [([] : List Nat)]).head? = some (L.headD []) := by
  cases L <;> rfl

/-- Unfolding of the runner at a producing call. -/
theorem takeAll_succ_of_next [Inhabited α] (it it' : CombinationIterator α)
    (c : List α) (fuel : Nat) (h : next it = (some c, it')) :
    takeAll (fuel + 1) it = c :: takeAll fuel it' := by
  rw [takeAll, h]

/-- Running the iterator along a successor chain of nonempty, short
enough index vectors produces exactly the chained vectors, mapped
through the item slice. -/
theorem takeAll_of_chain [Inhabited α] (items : List α) :
    ∀ (L : List (List Nat)) (fuel : Nat),
      List.Chain' (fun x y => advance items.length x = y) (L ++ [[]]) →
      (∀ l ∈ L, l ≠ []) → (∀ l ∈ L, l.length ≤ items.length) →
      L.length ≤ fuel →
      takeAll fuel { items := items, indices := L.headD [] } =
        L.map (fun l => l.map fun i => items.getD i default) := by
  intro L
  induction L with
  | nil =>
    intro fuel _ _ _ _
    exact takeAll_of_none _ (by simp [next]) fuel
  | cons l L ih =>
    intro fuel hch hne hlen hfuel
    cases fuel with
    | zero => simp at hfuel
    | succ fuel =>
      have hl : l ≠ [] := hne l (List.mem_cons_self l L)
      have hlle : ¬ items.length < l.length := by
        have := hlen l (List.mem_cons_self l L)
        omega
      have hguard : ¬ (l = [] ∨ items.length < l.length) := by
        intro h
        rcases h with h | h
        · exact hl h
        · exact hlle h
      have hnext : next { items := items, indices := l } =
          (some (l.map fun i => items.getD i default),
           { items := items, indices := advance items.length l }) := by
        unfold next
        rw [if_neg hguard]
      have hstep : advance items.length l = L.headD [] := by
        rw [List.cons_append] at hch
        have := (List.chain'_cons'.mp hch).1
        exact this (L.headD []) (head?_append_sentinel L)
      have hrec := ih fuel
        (by rw [List.cons_append] at hch; exact (List.chain'_cons'.mp hch).2)
        (fun x hx => hne x (List.mem_cons_of_mem l hx))
        (fun x hx => hlen x (List.mem_cons_of_mem l hx))
        (by simpa using Nat.le_of_succ_le_succ hfuel)
      rw [List.headD_cons, takeAll_succ_of_next _ _ _ fuel hnext, List.map_cons,
        hstep, hrec]

/-- Running the iterator along a successor chain for exactly as many
calls as there are vectors ends in the cleared state. -/
theorem steps_of_chain [Inhabited α] (items : List α) :
    ∀ L : List (List Nat),
      List.Chain' (fun x y => advance items.length x = y) (L ++ [[]]) →
      (∀ l ∈ L, l ≠ []) → (∀ l ∈ L, l.length ≤ items.length) →
      steps L.length { items := items, indices := L.headD [] } =
        { items := items, indices := ([] : List Nat) } := by
  intro L
  induction L with
  | nil => intro _ _ _; rfl
  | cons l L ih =>
    intro hch hne hlen
    have hl : l ≠ [] := hne l (List.mem_cons_self l L)
    have hlle : ¬ items.length < l.length := by
      have := hlen l (List.mem_cons_self l L)
      omega
    have hguard : ¬ (l = [] ∨ items.length < l.length) := by
      intro h
      rcases h with h | h
      · exact hl h
      · exact hlle h
    have hnext : next { items := items, indices := l } =
        (some (l.map fun i => items.getD i default),
         { items := items, indices := advance items.length l }) := by
      unfold next
      rw [if_neg hguard]
    have hstep : advance items.length l = L.headD [] := by
      rw [List.cons_append] at hch
      have := (List.chain'_cons'.mp hch).1
      exact this (L.headD []) (head?_append_sentinel L)
    rw [List.headD_cons, List.length_cons, steps, hnext, hstep]
    exact ih (by rw [List.cons_append] at hch; exact (List.chain'_cons'.mp hch).2)
      (fun x hx => hne x (List.mem_cons_of_mem l hx))
      (fun x hx => hlen x (List.mem_cons_of_mem l hx))

/-- A next call never touches the item slice. -/
theorem next_items [Inhabited α] (it : CombinationIterator α) :
    (next it).2.items = it.items := by
  unfold next
  split_ifs <;> rfl

/-- Iterated next calls never touch the item slice. -/
theorem steps_items [Inhabited α] :
    ∀ (m : Nat) (it : CombinationIterator α), (steps m it).items = it.items
  | 0, _ => rfl
  | m + 1, it => by rw [steps, steps_items m, next_items]

/-- Iterating can also be unfolded at the far end. -/
theorem steps_succ_right [Inhabited α] :
    ∀ (m : Nat) (it : CombinationIterator α),
      steps (m + 1) it = (next (steps m it)).2
  | 0, _ => rfl
  | m + 1, it => by rw [steps, steps_succ_right m, steps]

/-- Characterization of a producing next call. -/
theorem next_some_spec [Inhabited α] (it it' : CombinationIterator α) (c : List α)
    (h : next it = (some c, it')) :
    it.indices ≠ [] ∧ ¬ it.items.length < it.indices.length ∧
    c = it.indices.map (fun i => it.items.getD i default) ∧
    it' = { items := it.items, indices := advance it.items.length it.indices } := by
  unfold next at h
  split_ifs at h with hg
  · exact Option.noConfusion (congrArg Prod.fst h)
  · push_neg at hg
    have hc := congrArg Prod.fst h
    have hs := congrArg Prod.snd h
    simp only at hc hs
    exact ⟨hg.1, by omega, (Option.some.inj hc).symm, hs.symm⟩

/-- The scan preserves strict increase and the range bound whenever it
does not clear. -/
theorem scanRev_preserves (N : Nat) (l : List Nat) (hpw : l.Pairwise (· < ·))
    (hbd : ∀ x ∈ l, x < N) :
    ∀ n, n ≤ l.length → scanRev N l n = [] ∨
      ((scanRev N l n).Pairwise (· < ·) ∧ ∀ x ∈ scanRev N l n, x < N) := by
  intro n hn
  induction n with
  | zero => exact Or.inl rfl
  | succ i ih =>
    rw [scanRev]
    by_cases hc : l.getD i 0 < N - (l.length - i)
    · rw [if_pos hc]
      right
      have hi : i < l.length := Nat.lt_of_succ_le hn
      have hvi : l.getD i 0 = l[i] := List.getD_eq_getElem l 0 hi
      constructor
      · rw [List.pairwise_append]
        refine ⟨hpw.sublist (List.take_sublist i l),
          List.pairwise_lt_range' _ _, ?_⟩
        intro x hx y hy
        obtain ⟨j, hj, hxj⟩ := List.mem_iff_getElem.mp hx
        have hjlt : j < i := by
          have := hj
          rw [List.length_take] at this
          omega
        have hjl : j < l.length := by omega
        have hxl : x = l[j] := by rw [← hxj, List.getElem_take]
        have hxv : x < l[i] :=
          hxl ▸ List.pairwise_iff_getElem.mp hpw j i hjl hi hjlt
        obtain ⟨t, _, hyt⟩ := List.mem_range'.mp hy
        omega
      · intro x hx
        rcases List.mem_append.mp hx with hx | hx
        · exact hbd x (List.take_subset i l hx)
        · obtain ⟨t, ht, hxt⟩ := List.mem_range'.mp hx
          omega
    · rw [if_neg hc]
      exact ih (Nat.le_of_succ_le hn)

/-- The advancement preserves strict increase and the range bound
whenever it does not clear. -/
theorem advance_preserves (N : Nat) (l : List Nat) (hpw : l.Pairwise (· < ·))
    (hbd : ∀ x ∈ l, x < N) :
    advance N l = [] ∨
      ((advance N l).Pairwise (· < ·) ∧ ∀ x ∈ advance N l, x < N) :=
  scanRev_preserves N l hpw hbd l.length (Nat.le_refl _)

/-- Invariant of every reachable state: the index vector is cleared, or
is a strictly increasing in-range vector of the requested length, or
(when the requested length exceeds the slice) the untouched initial
vector. -/
theorem reachable_inv [Inhabited α] (items : List α) (k : Nat) :
    ∀ m, (steps m (new items k)).indices = [] ∨
      ((steps m (new items k)).indices.length = k ∧ k ≤ items.length ∧
       (steps m (new items k)).indices.Pairwise (· < ·) ∧
       (∀ x ∈ (steps m (new items k)).indices, x < items.length)) ∨
      ((steps m (new items k)).indices = List.range k ∧ items.length < k) := by
  intro m
  induction m with
  | zero =>
    rcases le_or_lt k items.length with hk | hk
    · right; left
      refine ⟨List.length_range k, hk, List.pairwise_lt_range k, ?_⟩
      intro x hx
      have := List.mem_range.mp hx
      omega
    · right; right
      exact ⟨rfl, hk⟩
  | succ m ih =>
    set s := steps m (new items k) with hsdef
    have hsit : s.items = items := steps_items m (new items k)
    rw [steps_succ_right, ← hsdef]
    by_cases hnil : s.indices = []
    · have hno : (next s).1 = none := (next_eq_none_iff s).mpr (Or.inl hnil)
      rw [next_none_frame s hno]
      exact Or.inl hnil
    · rcases ih with h | h | h
      · exact absurd h hnil
      · obtain ⟨hlen, hkN, hpw, hbd⟩ := h
        have hguard : ¬ (s.indices = [] ∨ s.items.length < s.indices.length) := by
          rw [hsit, hlen]
          push_neg
          exact ⟨hnil, by omega⟩
        have hnext : (next s).2 =
            { items := s.items, indices := advance s.items.length s.indices } := by
          unfold next
          rw [if_neg hguard]
        rw [hnext, hsit]
        rcases advance_preserves items.length s.indices hpw hbd
            with hadv | ⟨hpw', hbd'⟩
        · rw [hadv]
          exact Or.inl rfl
        · rcases advance_eq_nil_or_length items.length s.indices with hadv | hlen'
          · rw [hadv]
            exact Or.inl rfl
          · right; left
            exact ⟨by rw [hlen']; exact hlen, hkN, hpw', hbd'⟩
      · obtain ⟨hrange, hk⟩ := h
        have hno : (next s).1 = none := by
          apply (next_eq_none_iff s).mpr
          right
          rw [hsit, hrange, List.length_range]
          exact hk
        rw [next_none_frame s hno]
        exact Or.inr (Or.inr ⟨hrange, hk⟩)

end CombinationIterator

/-- Transitivity of the strict lexicographic order on index tuples. -/
theorem lex_lt_trans : ∀ {l₁ l₂ l₃ : List Nat},
    List.Lex (· < ·) l₁ l₂ → List.Lex (· < ·) l₂ l₃ → List.Lex (· < ·) l₁ l₃ := by
  intro l₁ l₂ l₃ h₁ h₂
  induction h₁ generalizing l₃ with
  | nil =>
    cases h₂ with
    | cons _ => exact List.Lex.nil
    | rel _ => exact List.Lex.nil
  | cons _ ih =>
    cases h₂ with
    | cons h' => exact List.Lex.cons (ih h')
    | rel h' => exact List.Lex.rel h'
  | rel h =>
    cases h₂ with
    | cons _ => exact List.Lex.rel h
    | rel h' => exact List.Lex.rel (Nat.lt_trans h h')

instance : IsTrans (List Nat) (List.Lex (· < ·)) :=
  ⟨fun _ _ _ => lex_lt_trans⟩

namespace CombinationIterator

variable {α : Type}

/-- The head of the trace is the current index vector, and a nonempty
trace starts at a state with a nonempty index vector. -/
theorem indexTrace_head [Inhabited α] (fuel : Nat) (it : CombinationIterator α) :
    ∀ y ∈ (indexTrace fuel it).head?, y = it.indices ∧ it.indices ≠ [] := by
  cases fuel with
  | zero => simp [indexTrace]
  | succ fuel =>
    rcases hn : next it with ⟨o, it'⟩
    cases o with
    | none =>
      rw [indexTrace, hn]
      simp
    | some c =>
      rw [indexTrace, hn]
      intro y hy
      simp only [List.head?_cons, Option.mem_def, Option.some.injEq] at hy
      exact ⟨hy.symm, (next_some_spec it it' c hn).1⟩

/-- Successive produced index tuples are lexicographically increasing,
consecutive ones pairwise. -/
theorem indexTrace_chain [Inhabited α] :
    ∀ (fuel : Nat) (it : CombinationIterator α),
      List.Chain' (List.Lex (· < ·)) (indexTrace fuel it)
  | 0, _ => List.chain'_nil
  | fuel + 1, it => by
    rcases hn : next it with ⟨o, it'⟩
    cases o with
    | none =>
      rw [indexTrace, hn]
      exact List.chain'_nil
    | some c =>
      rw [indexTrace, hn]
      apply List.chain'_cons'.mpr
      refine ⟨?_, indexTrace_chain fuel it'⟩
      intro y hy
      obtain ⟨hy', hne'⟩ := indexTrace_head fuel it' y hy
      obtain ⟨_, _, _, hit'⟩ := next_some_spec it it' c hn
      have hadv : it'.indices = advance it.items.length it.indices := by rw [hit']
      rw [hy', hadv]
      exact advance_lex _ _ (hadv ▸ hne')

/-- Every traced tuple is the index vector of some reachable state. -/
theorem indexTrace_mem [Inhabited α] :
    ∀ (fuel : Nat) (it : CombinationIterator α) (l : List Nat),
      l ∈ indexTrace fuel it → ∃ m, l = (steps m it).indices
  | 0, _, _, h => absurd h (by simp [indexTrace])
  | fuel + 1, it, l, h => by
    rcases hn : next it with ⟨o, it'⟩
    cases o with
    | none =>
      rw [indexTrace, hn] at h
      simp at h
    | some c =>
      rw [indexTrace, hn] at h
      rcases List.mem_cons.mp h with h | h
      · exact ⟨0, h⟩
      · obtain ⟨m, hm⟩ := indexTrace_mem fuel it' l h
        refine ⟨m + 1, ?_⟩
        rw [steps, hn]
        exact hm

/-- Entry below the reset position: unchanged by the rewritten suffix. -/
theorem getD_reset_lt (l : List Nat) (i v j : Nat) (hij : j < i) (hi : i ≤ l.length) :
    (l.take i ++ List.range' v (l.length - i)).getD j 0 = l.getD j 0 := by
  have hjl : j < l.length := by omega
  have hjt : j < (l.take i).length := by
    rw [List.length_take]
    omega
  have htot : j < (l.take i ++ List.range' v (l.length - i)).length := by
    rw [List.length_append, List.length_take, List.length_range']
    omega
  rw [List.getD_eq_getElem _ _ htot, List.getElem_append_left hjt,
    List.getElem_take, List.getD_eq_getElem _ _ hjl]

/-- Entry at or above the reset position: the consecutive run value. -/
theorem getD_reset_ge (l : List Nat) (i v j : Nat) (hij : i ≤ j) (hj : j < l.length) :
    (l.take i ++ List.range' v (l.length - i)).getD j 0 = v + (j - i) := by
  have hle : (l.take i).length ≤ j := by
    rw [List.length_take]
    omega
  have htot : j < (l.take i ++ List.range' v (l.length - i)).length := by
    rw [List.length_append, List.length_take, List.length_range']
    omega
  have hidx : j - (l.take i).length < (List.range' v (l.length - i)).length := by
    rw [List.length_take, List.length_range']
    omega
  rw [List.getD_eq_getElem _ _ htot, List.getElem_append_right hle,
    List.getElem_range']
  rw [List.length_take]
  have : i ⊓ l.length = i := Nat.min_eq_left (by omega)
  rw [this]
  omega

/-- Helper: a list whose optional head is known has that head as
default-head. -/
theorem headD_eq_of_head? {β : Type} {L : List β} {x d : β}
    (h : L.head? = some x) : L.headD d = x := by
  cases L with
  | nil => exact Option.noConfusion h
  | cons a L' =>
    rw [List.headD_cons]
    exact Option.some.inj h

end CombinationIterator

open CombinationIterator

/-- C1: each produce-next call on a non-exhausted enumerator returns the
combination built from the pre-advancement index vector and advances the
vector by the successor rule: the highest position i whose entry is
below the slice length minus the distance to the end is incremented, the
positions after it are reset to the consecutive run continuing the new
entry, and if no position qualifies the vector is cleared while the
built combination is still returned. -/
theorem claim1_successor_rule {α : Type} [Inhabited α]
    (it : CombinationIterator α) (h1 : it.indices ≠ [])
    (h2 : it.indices.length ≤ it.items.length) :
    (next it).1 = some (it.indices.map fun i => it.items.getD i default) ∧
    (∀ i, i < it.indices.length →
      it.indices.getD i 0 < it.items.length - (it.indices.length - i) →
      (∀ j, i < j → j < it.indices.length →
        ¬ it.indices.getD j 0 < it.items.length - (it.indices.length - j)) →
      ((next it).2.indices.length = it.indices.length ∧
       (∀ j, j < i → (next it).2.indices.getD j 0 = it.indices.getD j 0) ∧
       (next it).2.indices.getD i 0 = it.indices.getD i 0 + 1 ∧
       (∀ j, i < j → j < it.indices.length →
         (next it).2.indices.getD j 0 = (next it).2.indices.getD i 0 + (j - i)))) ∧
    ((∀ i, i < it.indices.length →
        ¬ it.indices.getD i 0 < it.items.length - (it.indices.length - i)) →
      (next it).2.indices = []) := by
  have hguard : ¬ (it.indices = [] ∨ it.items.length < it.indices.length) := by
    push_neg
    exact ⟨h1, by omega⟩
  have hnext : next it =
      (some (it.indices.map fun i => it.items.getD i default),
       { items := it.items, indices := advance it.items.length it.indices }) := by
    unfold CombinationIterator.next
    rw [if_neg hguard]
  refine ⟨by rw [hnext], ?_, ?_⟩
  · intro i hi hc hmax
    have hadv : advance it.items.length it.indices =
        it.indices.take i ++
          List.range' (it.indices.getD i 0 + 1) (it.indices.length - i) :=
      scanRev_eq_of_spec it.items.length it.indices i it.indices.length hi hc hmax
    have hind : (next it).2.indices =
        it.indices.take i ++
          List.range' (it.indices.getD i 0 + 1) (it.indices.length - i) := by
      rw [hnext]
      exact hadv
    refine ⟨?_, ?_, ?_, ?_⟩
    · rw [hind, List.length_append, List.length_take, List.length_range',
        Nat.min_eq_left (Nat.le_of_lt hi)]
      omega
    · intro j hj
      rw [hind, getD_reset_lt _ _ _ _ hj (Nat.le_of_lt hi)]
    · rw [hind, getD_reset_ge _ _ _ _ (Nat.le_refl i) hi]
      omega
    · intro j hji hjlen
      rw [hind, getD_reset_ge _ _ _ _ (by omega) hjlen,
        getD_reset_ge _ _ _ _ (Nat.le_refl i) hi]
      omega
  · intro hall
    have hadv : advance it.items.length it.indices = [] :=
      scanRev_eq_nil _ _ it.indices.length (fun j hj => hall j hj)
    rw [hnext]
    exact hadv

/-- Witness for C1 at a concrete fresh enumerator. -/
theorem claim1_witness :
    (next (new ([10, 20, 30] : List Nat) 2)).1 =
      some ((new ([10, 20, 30] : List Nat) 2).indices.map
        fun i => (new ([10, 20, 30] : List Nat) 2).items.getD i default) ∧
    (∀ i, i < (new ([10, 20, 30] : List Nat) 2).indices.length →
      (new ([10, 20, 30] : List Nat) 2).indices.getD i 0 <
        (new ([10, 20, 30] : List Nat) 2).items.length -
          ((new ([10, 20, 30] : List Nat) 2).indices.length - i) →
      (∀ j, i < j → j < (new ([10, 20, 30] : List Nat) 2).indices.length →
        ¬ (new ([10, 20, 30] : List Nat) 2).indices.getD j 0 <
          (new ([10, 20, 30] : List Nat) 2).items.length -
            ((new ([10, 20, 30] : List Nat) 2).indices.length - j)) →
      ((next (new ([10, 20, 30] : List Nat) 2)).2.indices.length =
        (new ([10, 20, 30] : List Nat) 2).indices.length ∧
       (∀ j, j < i →
        (next (new ([10, 20, 30] : List Nat) 2)).2.indices.getD j 0 =
          (new ([10, 20, 30] : List Nat) 2).indices.getD j 0) ∧
       (next (new ([10, 20, 30] : List Nat) 2)).2.indices.getD i 0 =
        (new ([10, 20, 30] : List Nat) 2).indices.getD i 0 + 1 ∧
       (∀ j, i < j → j < (new ([10, 20, 30] : List Nat) 2).indices.length →
        (next (new ([10, 20, 30] : List Nat) 2)).2.indices.getD j 0 =
          (next (new ([10, 20, 30] : List Nat) 2)).2.indices.getD i 0 + (j - i)))) ∧
    ((∀ i, i < (new ([10, 20, 30] : List Nat) 2).indices.length →
        ¬ (new ([10, 20, 30] : List Nat) 2).indices.getD i 0 <
          (new ([10, 20, 30] : List Nat) 2).items.length -
            ((new ([10, 20, 30] : List Nat) 2).indices.length - i)) →
      (next (new ([10, 20, 30] : List Nat) 2)).2.indices = []) :=
  claim1_successor_rule (new [10, 20, 30] 2) (by decide) (by decide)

/-- C2: for 0 < k ≤ N a fresh enumerator produces exactly
N choose k combinations across successive produce-next calls before the
first exhausted signal. -/
theorem claim2_count {α : Type} [Inhabited α] (items : List α) (k fuel : Nat)
    (h1 : 0 < k) (h2 : k ≤ items.length)
    (hf : Nat.choose items.length k ≤ fuel) :
    (takeAll fuel (new items k)).length = Nat.choose items.length k ∧
    (next (steps (Nat.choose items.length k) (new items k))).1 = none := by
  have hs0 : 0 + k ≤ items.length := by omega
  have hchain := combosFrom_chain items.length k 0 hs0
  have hmemlen : ∀ l ∈ combosFrom items.length 0 k, l.length = k :=
    fun l hl => combosFrom_length_mem items.length k 0 l hl
  have hne : ∀ l ∈ combosFrom items.length 0 k, l ≠ [] := by
    intro l hl hnil
    have hx := hmemlen l hl
    rw [hnil] at hx
    simp at hx
    omega
  have hlen : ∀ l ∈ combosFrom items.length 0 k, l.length ≤ items.length :=
    fun l hl => by rw [hmemlen l hl]; exact h2
  have hLlen : (combosFrom items.length 0 k).length = Nat.choose items.length k := by
    rw [combosFrom_length items.length k 0, Nat.sub_zero]
  have hhead : (combosFrom items.length 0 k).headD [] = List.range k := by
    rw [headD_eq_of_head? (combosFrom_head items.length k 0 hs0),
      List.range_eq_range']
  have hnew : new items k =
      { items := items, indices := (combosFrom items.length 0 k).headD [] } := by
    rw [hhead]
    rfl
  constructor
  · rw [hnew, takeAll_of_chain items _ fuel hchain hne hlen (by omega),
      List.length_map, hLlen]
  · rw [hnew, ← hLlen, steps_of_chain items _ hchain hne hlen]
    exact (next_eq_none_iff _).mpr (Or.inl rfl)

/-- Witness for C2 at four items choose two. -/
theorem claim2_witness :
    (takeAll 7 (new ([3, 1, 4, 1] : List Nat) 2)).length = Nat.choose 4 2 ∧
    (next (steps (Nat.choose 4 2) (new ([3, 1, 4, 1] : List Nat) 2))).1 = none :=
  claim2_count [3, 1, 4, 1] 2 7 (by decide) (by decide) (by decide)

/-- C3: for every item sequence and every k, the index tuples underlying
the combinations produced by successive produce-next calls on one
enumerator form a strictly lexicographically increasing sequence. -/
theorem claim3_lex_increasing {α : Type} [Inhabited α] (items : List α)
    (k fuel : Nat) :
    (indexTrace fuel (new items k)).Pairwise (List.Lex (· < ·)) :=
  List.chain'_iff_pairwise.mp (indexTrace_chain fuel (new items k))

/-- C4: a produce-next call returns the exhausted signal exactly when
the index vector is empty or longer than the item slice; for k = 0 and
for k greater than the slice length the very first call signals
exhaustion and zero combinations are produced (and no call errors: next
is a total function). -/
theorem claim4_exhausted_guard {α : Type} [Inhabited α]
    (it : CombinationIterator α) (items : List α) (k fuel : Nat)
    (h : k = 0 ∨ items.length < k) :
    ((next it).1 = none ↔
      it.indices = [] ∨ it.items.length < it.indices.length) ∧
    (next (new items k)).1 = none ∧ takeAll fuel (new items k) = [] := by
  have hg : (new items k).indices = [] ∨
      (new items k).items.length < (new items k).indices.length := by
    rcases h with h | h
    · left
      rw [h]
      rfl
    · right
      show items.length < (List.range k).length
      rw [List.length_range]
      exact h
  have hnone := (next_eq_none_iff (new items k)).mpr hg
  exact ⟨next_eq_none_iff it, hnone, takeAll_of_none _ hnone fuel⟩

/-- Witness for C4 at a concrete enumerator and a concrete degenerate
request. -/
theorem claim4_witness :
    ((next (new ([10, 20, 30] : List Nat) 2)).1 = none ↔
      (new ([10, 20, 30] : List Nat) 2).indices = [] ∨
        (new ([10, 20, 30] : List Nat) 2).items.length <
          (new ([10, 20, 30] : List Nat) 2).indices.length) ∧
    (next (new ([10, 20, 30] : List Nat) 5)).1 = none ∧
    takeAll 4 (new ([10, 20, 30] : List Nat) 5) = [] :=
  claim4_exhausted_guard (new [10, 20, 30] 2) [10, 20, 30] 5 4 (by decide)

/-- C5: while enumeration is active the index vector is strictly
increasing with entries below the slice length, and every produced
combination's index tuple is strictly increasing. -/
theorem claim5_invariant {α : Type} [Inhabited α] (items : List α)
    (k m fuel : Nat) (h : k ≤ items.length) :
    ((steps m (new items k)).indices ≠ [] →
      (steps m (new items k)).indices.Pairwise (· < ·) ∧
      ∀ x ∈ (steps m (new items k)).indices, x < items.length) ∧
    (∀ l ∈ indexTrace fuel (new items k), l.Pairwise (· < ·)) := by
  constructor
  · intro hne
    rcases reachable_inv items k m with hc | hc | hc
    · exact absurd hc hne
    · exact ⟨hc.2.2.1, hc.2.2.2⟩
    · exact absurd h (by omega)
  · intro l hl
    obtain ⟨m', hm'⟩ := indexTrace_mem fuel (new items k) l hl
    rcases reachable_inv items k m' with hc | hc | hc
    · rw [hm', hc]
      exact List.Pairwise.nil
    · rw [hm']
      exact hc.2.2.1
    · exact absurd h (by omega)

/-- Witness for C5 at a concrete enumerator one step into enumeration. -/
theorem claim5_witness :
    ((steps 1 (new ([10, 20, 30] : List Nat) 2)).indices ≠ [] →
      (steps 1 (new ([10, 20, 30] : List Nat) 2)).indices.Pairwise (· < ·) ∧
      ∀ x ∈ (steps 1 (new ([10, 20, 30] : List Nat) 2)).indices, x < 3) ∧
    (∀ l ∈ indexTrace 5 (new ([10, 20, 30] : List Nat) 2), l.Pairwise (· < ·)) :=
  claim5_invariant [10, 20, 30] 2 1 5 (by decide)

/-- C6: once a produce-next call has returned the exhausted signal,
every subsequent produce-next call on the same enumerator also returns
the exhausted signal. -/
theorem claim6_exhaustion_idempotent {α : Type} [Inhabited α]
    (it : CombinationIterator α) (m : Nat) (h : (next it).1 = none) :
    (next (steps m it)).1 = none := by
  rw [steps_of_none it h m]
  exact h

/-- Witness for C6 at a concrete exhausted enumerator. -/
theorem claim6_witness : (next (steps 4 (new ([5] : List Nat) 3))).1 = none :=
  claim6_exhaustion_idempotent (new [5] 3) 4 (by decide)

/-- C7: construction always succeeds (new is total), initializes the
index vector to 0, 1, ..., k-1 (empty when k = 0), and the vector length
never changes during enumeration: until cleared it equals k. -/
theorem claim7_construction {α : Type} [Inhabited α] (items : List α) (k m : Nat) :
    (new items k).indices = List.range k ∧
    ((steps m (new items k)).indices = [] ∨
      (steps m (new items k)).indices.length = k) := by
  refine ⟨rfl, ?_⟩
  rcases reachable_inv items k m with hc | hc | hc
  · exact Or.inl hc
  · exact Or.inr hc.1
  · right
    rw [hc.1]
    exact List.length_range k

/-- C8: the two concrete scenarios from the crate's tests, including the
exhaustion signal right after the last combination. -/
theorem claim8_concrete :
    takeAll 4 (new ([1, 2, 3] : List Nat) 2) = [[1, 2], [1, 3], [2, 3]] ∧
    (next (steps 3 (new ([1, 2, 3] : List Nat) 2))).1 = none ∧
    takeAll 11 (new ([1, 2, 3, 4, 5] : List Nat) 3) =
      [[1, 2, 3], [1, 2, 4], [1, 2, 5], [1, 3, 4], [1, 3, 5], [1, 4, 5],
       [2, 3, 4], [2, 3, 5], [2, 4, 5], [3, 4, 5]] ∧
    (next (steps 10 (new ([1, 2, 3, 4, 5] : List Nat) 3))).1 = none := by
  refine ⟨by decide, by decide, by decide, by decide⟩

/-- C9: whenever produce-next builds a combination, every index it reads
is strictly below the item slice length, so the slice accesses are in
bounds. -/
theorem claim9_in_bounds {α : Type} [Inhabited α] (items : List α) (k m : Nat)
    (h : (next (steps m (new items k))).1.isSome = true) :
    ∀ i ∈ (steps m (new items k)).indices, i < items.length := by
  intro i hi
  rcases reachable_inv items k m with hc | hc | hc
  · rw [hc] at hi
    exact absurd hi (List.not_mem_nil i)
  · exact hc.2.2.2 i hi
  · exfalso
    have hni : (new items k).items = items := rfl
    have hno : (next (steps m (new items k))).1 = none := by
      apply (next_eq_none_iff _).mpr
      right
      rw [steps_items, hni, hc.1, List.length_range]
      exact hc.2
    rw [hno] at h
    simp at h

/-- Witness for C9 one step into a concrete enumeration: the second
call reads index 1 of a two-item slice, which is in bounds. -/
theorem claim9_witness :
    (next (steps 1 (new ([7, 8] : List Nat) 1))).1.isSome = true ∧
    1 ∈ (steps 1 (new ([7, 8] : List Nat) 1)).indices ∧ 1 < 2 :=
  ⟨by decide, by decide, claim9_in_bounds [7, 8] 1 1 (by decide) 1 (by decide)⟩

/-- C10: a produce-next call that returns the exhausted signal leaves
the enumerator's state completely unchanged. -/
theorem claim10_frame {α : Type} [Inhabited α] (it : CombinationIterator α)
    (h : (next it).1 = none) : (next it).2 = it :=
  next_none_frame it h

/-- Witness for C10 at a concrete exhausted enumerator. -/
theorem claim10_witness :
    (next (new ([1] : List Nat) 0)).2 = new ([1] : List Nat) 0 :=
  claim10_frame (new [1] 0) (by decide)

end GenCombinations
